import Mathlib

/-!
Verification of the dbt-core execution-core utility slice
(`core/dbt/utils.py`) and of the run/clone task behavior exercised by
`tests/unit/task/test_run.py` and `tests/unit/task/test_clone.py`.

The Python code is shallowly embedded: Python dicts become association
lists with distinct keys, exceptions become explicit `Except`/sum results,
and the stateful callable passed to the retry helper becomes a function
from the invocation index to that invocation's outcome.
-/

namespace DbtCore

/- ## Retry wrapper: `_connection_exception_retry` (utils.py lines 363-386)

The Python function calls `fn()`; on a `requests.exceptions.RequestException`,
`tarfile.ReadError` or `EOFError` it retries (recursively, with `attempt + 1`)
while `attempt <= max_attempts - 1`, and otherwise wraps the last exception in
`ConnectionError`.  Any other exception propagates unhandled.

`fn` is a stateful thunk in Python: successive invocations may behave
differently.  We model it as a function from the invocation index (0-based)
to that invocation's outcome.  The embedding also returns the total number
of invocations performed, so that retry counts are observable. -/

/-- Outcome of a single invocation of the thunk passed to the retry helper:
a normal return, one of the three transient exception types
(`RequestException`, `ReadError`, `EOFError`, carrying their message),
or any other exception. -/
inductive CallResult (α : Type) where
  | ok : α → CallResult α
  | transient : String → CallResult α
  | nontransient : String → CallResult α
deriving DecidableEq

/-- Result of the retry helper as seen by its caller: a normal return,
the terminal `ConnectionError`, or an unhandled (non-transient) exception. -/
inductive RetryOutcome (α : Type) where
  | ok : α → RetryOutcome α
  | connectionError : String → RetryOutcome α
  | raised : String → RetryOutcome α
deriving DecidableEq

/-- Embedding of `_connection_exception_retry(fn, max_attempts, attempt)`.
`calls` is the number of invocations already performed (the next invocation
of `fn` is invocation `calls`); the returned `Nat` is the total number of
invocations performed.  The Python guard `attempt <= max_attempts - 1` is
evaluated over the integers, as in Python. -/
def connection_exception_retry (fn : Nat → CallResult α) (max_attempts : Nat)
    (attempt : Nat) (calls : Nat) : RetryOutcome α × Nat :=
  match fn calls with
  | .ok v => (.ok v, calls + 1)
  | .nontransient e => (.raised e, calls + 1)
  | .transient e =>
    if (attempt : Int) ≤ (max_attempts : Int) - 1 then
      connection_exception_retry fn max_attempts (attempt + 1) (calls + 1)
    else
      (.connectionError ("External connection exception occurred: " ++ e), calls + 1)
termination_by max_attempts - attempt
decreasing_by
  simp_wf
  omega

/-- The retry helper as called from the outside: `attempt` starts at 0 and
no invocation has happened yet. -/
def withRetry (fn : Nat → CallResult α) (max_attempts : Nat) : RetryOutcome α × Nat :=
  connection_exception_retry fn max_attempts 0 0

/-- A thunk that raises a transient exception on its first two invocations
and returns 42 on the third. -/
def failTwiceThenOk : Nat → CallResult Nat :=
  fun i => if i < 2 then .transient (toString i) else .ok 42

/-- A thunk that raises a transient exception on every invocation, with a
message recording the invocation index. -/
def alwaysTransient : Nat → CallResult Nat :=
  fun i => .transient (toString i)

/-- C1: with `max_attempts = 3`, an action failing transiently twice then
succeeding returns the success result after 3 invocations (2 retries), and
an action failing transiently on 4 consecutive invocations raises the
terminal `ConnectionError` (wrapping the 4th failure) after 4 invocations
(3 retries). -/
theorem retry_maxAttempts3_behavior :
    withRetry failTwiceThenOk 3 = (.ok 42, 3) ∧
    withRetry alwaysTransient 3 =
      (.connectionError ("External connection exception occurred: " ++ toString 3), 4) := by
  constructor <;>
    simp [withRetry, connection_exception_retry, failTwiceThenOk, alwaysTransient]

/-- C6: a non-transient failure on the first invocation propagates
immediately, with exactly one invocation and zero retries, whatever the
retry budget. -/
theorem retry_nontransient_propagates (fn : Nat → CallResult α) (max_attempts : Nat)
    (e : String) (h : fn 0 = .nontransient e) :
    withRetry fn max_attempts = (.raised e, 1) := by
  rw [withRetry, connection_exception_retry, h]

theorem retry_nontransient_propagates_witness :
    withRetry (fun _ => CallResult.nontransient "boom" (α := Nat)) 7 =
      (.raised "boom", 1) :=
  retry_nontransient_propagates (fun _ => CallResult.nontransient "boom") 7 "boom" rfl

/-- Invocation-count bound for the general recursive helper: starting at
`attempt` with `calls` invocations already performed, at most
`(max_attempts - attempt) + 1` further invocations happen. -/
theorem connection_exception_retry_calls_le (fn : Nat → CallResult α)
    (max_attempts : Nat) :
    ∀ d attempt calls, max_attempts ≤ attempt + d →
      (connection_exception_retry fn max_attempts attempt calls).2 ≤ calls + d + 1 := by
  intro d
  induction d with
  | zero =>
    intro attempt calls hle
    rw [connection_exception_retry]
    cases fn calls with
    | ok v => simp
    | nontransient e => simp
    | transient e =>
      have : ¬ ((attempt : Int) ≤ (max_attempts : Int) - 1) := by omega
      simp [this]
  | succ d ih =>
    intro attempt calls hle
    rw [connection_exception_retry]
    cases fn calls with
    | ok v => simp
    | nontransient e => simp
    | transient e =>
      by_cases hg : (attempt : Int) ≤ (max_attempts : Int) - 1
      · simp only [hg, if_true]
        have := ih (attempt + 1) (calls + 1) (by omega)
        omega
      · simp [hg]

/-- When every invocation fails transiently, the helper raises the terminal
`ConnectionError` wrapping the failure of the final invocation, after exactly
`(max_attempts - attempt) + 1` further invocations. -/
theorem connection_exception_retry_all_transient (fn : Nat → CallResult α)
    (max_attempts : Nat) (msg : Nat → String)
    (hfn : ∀ i, fn i = .transient (msg i)) :
    ∀ d attempt calls, max_attempts = attempt + d →
      connection_exception_retry fn max_attempts attempt calls =
        (.connectionError ("External connection exception occurred: " ++ msg (calls + d)),
         calls + d + 1) := by
  intro d
  induction d with
  | zero =>
    intro attempt calls hda
    rw [connection_exception_retry, hfn calls]
    have : ¬ ((attempt : Int) ≤ (max_attempts : Int) - 1) := by omega
    simp [this]
  | succ d ih =>
    intro attempt calls hda
    rw [connection_exception_retry, hfn calls]
    have hg : (attempt : Int) ≤ (max_attempts : Int) - 1 := by omega
    simp only [hg, if_true]
    rw [ih (attempt + 1) (calls + 1) (by omega)]
    have h2 : calls + 1 + d = calls + (d + 1) := by omega
    rw [h2]

/-- C7: for every action and every `max_attempts`, the retry wrapper
invokes the action at most `max_attempts + 1` times; and when every
invocation fails transiently it raises the terminal `ConnectionError`
wrapping the last (the `max_attempts`-th, 0-based) failure after exactly
`max_attempts + 1` invocations — it never retries indefinitely. -/
theorem retry_terminates_and_bounded (fn : Nat → CallResult α)
    (max_attempts : Nat) (msg : Nat → String) :
    (withRetry fn max_attempts).2 ≤ max_attempts + 1 ∧
    ((∀ i, fn i = .transient (msg i)) →
      withRetry fn max_attempts =
        (.connectionError ("External connection exception occurred: " ++ msg max_attempts),
         max_attempts + 1)) := by
  constructor
  · have := connection_exception_retry_calls_le fn max_attempts max_attempts 0 0 (by omega)
    simpa [withRetry] using this
  · intro hfn
    have := connection_exception_retry_all_transient fn max_attempts msg hfn max_attempts 0 0
      (by omega)
    simpa [withRetry] using this

theorem retry_terminates_and_bounded_witness :
    (withRetry alwaysTransient 2).2 ≤ 3 ∧
    withRetry alwaysTransient 2 =
      (.connectionError ("External connection exception occurred: " ++ toString 2), 3) := by
  have h := retry_terminates_and_bounded alwaysTransient 2 (fun i => toString i)
  exact ⟨h.1, h.2 (fun i => rfl)⟩

/- ## `MultiDict` (utils.py lines 316-360)

A `MultiDict` holds a list `sources` of string-keyed mappings.
`__getitem__` scans `reversed(self.sources)` and returns `entry[name]`
from the first entry (i.e. the most recently added layer) that contains
the key, raising `KeyError` otherwise; `__contains__` is `any` over the
same reversed iteration.  A Python dict layer is embedded as an
association list with distinct keys; dict membership and item access
become `alookup`. -/

/-- Association-list lookup, embedding Python dict item access
(`entry[name]` / `entry.get(name)`): the value at the first matching key,
if any. -/
def alookup (entry : List (String × α)) (name : String) : Option α :=
  match entry with
  | [] => none
  | (k, v) :: rest => if k = name then some v else alookup rest name

/-- Python `name in entry` for a dict layer. -/
def layerContains (entry : List (String × α)) (name : String) : Bool :=
  (entry.map Prod.fst).contains name

/-- Scan of the already-reversed source list performed by
`MultiDict.__getitem__`: the first layer containing the key wins;
`none` embeds the `KeyError` raised when no layer contains it. -/
def lookupFirst : List (List (String × α)) → String → Option α
  | [], _ => none
  | entry :: rest, name =>
    if layerContains entry name then alookup entry name else lookupFirst rest name

/-- `MultiDict.__getitem__(name)`: iterate `reversed(sources)`, return the
first hit, `KeyError` (here `none`) if absent everywhere. -/
def MultiDict.getItem (sources : List (List (String × α))) (name : String) : Option α :=
  lookupFirst sources.reverse name

/-- `MultiDict.__contains__(name)`: `any` over `reversed(sources)`. -/
def MultiDict.mem (sources : List (List (String × α))) (name : String) : Bool :=
  sources.reverse.any (fun entry => layerContains entry name)

/-- Specification-side reading of "last write wins": the value of the key
in the most recently added layer that defines it, if any. -/
def lastDefined (sources : List (List (String × α))) (name : String) : Option α :=
  (sources.filterMap (fun entry => alookup entry name)).getLast?

theorem layerContains_eq_isSome (entry : List (String × α)) (name : String) :
    layerContains entry name = (alookup entry name).isSome := by
  induction entry with
  | nil => rfl
  | cons p rest ih =>
    obtain ⟨k, v⟩ := p
    by_cases hk : k = name
    · subst hk
      simp [layerContains, alookup]
    · rw [layerContains, List.map_cons, List.contains_cons]
      have hbeq : (name == k) = false := beq_eq_false_iff_ne.mpr (Ne.symm hk)
      rw [hbeq, Bool.false_or, ← layerContains, ih]
      simp [alookup, hk]

theorem lookupFirst_eq_head_filterMap (sources : List (List (String × α))) (name : String) :
    lookupFirst sources name =
      (sources.filterMap (fun entry => alookup entry name)).head? := by
  induction sources with
  | nil => rfl
  | cons entry rest ih =>
    rw [lookupFirst, layerContains_eq_isSome]
    cases h : alookup entry name with
    | none => simpa [List.filterMap_cons, h] using ih
    | some v => simp [List.filterMap_cons, h]

/-- C3: `MultiDict` lookup returns the value from the most recently added
layer that defines the key; when no layer defines it, lookup signals
absence (`KeyError`, embedded as `none`) and the containment test is
false; concretely, layers `[x:1], [x:2]` give `2` for `x` and `y` is
absent. -/
theorem multiDict_last_write_wins (sources : List (List (String × α))) (name : String) :
    MultiDict.getItem sources name = lastDefined sources name ∧
    MultiDict.mem sources name = (lastDefined sources name).isSome ∧
    MultiDict.getItem [[("x", (1 : Nat))], [("x", 2)]] "x" = some 2 ∧
    MultiDict.getItem [[("x", (1 : Nat))], [("x", 2)]] "y" = none ∧
    MultiDict.mem [[("x", (1 : Nat))], [("x", 2)]] "y" = false := by
  refine ⟨?_, ?_, by decide, by decide, by decide⟩
  · rw [MultiDict.getItem, lookupFirst_eq_head_filterMap, lastDefined,
      List.filterMap_reverse, List.getLast?_eq_head?_reverse]
  · rw [MultiDict.mem, lastDefined, List.getLast?_eq_head?_reverse,
      ← List.filterMap_reverse, ← lookupFirst_eq_head_filterMap]
    induction sources.reverse with
    | nil => rfl
    | cons entry rest ih =>
      rw [lookupFirst, List.any_cons, layerContains_eq_isSome]
      cases h : alookup entry name with
      | none => simpa [h] using ih
      | some v => simp [h]

/- ## `fqn_search` (utils.py lines 295-308)

A generator over a nested string-keyed dictionary: it yields `root`, then
for each fqn segment does `root.get(level, None)`; if the result is not a
dict it breaks, otherwise it yields that dict and descends into it.
Nested configuration values are embedded as `CfgVal` (an opaque leaf or a
nested dict); the generator's output is the list of yielded levels. -/

/-- A configuration value: an opaque non-dict leaf, or a nested
string-keyed dictionary. -/
inductive CfgVal where
  | leaf : Int → CfgVal
  | dict : List (String × CfgVal) → CfgVal

/-- The loop body of `fqn_search`: for each remaining segment, look the
segment up in the current level; stop unless the value is a dict;
otherwise emit the nested dict and continue from it.  `root.get(level,
None)` with the key absent gives `None`, which is not a dict, so absence
also stops the loop. -/
def fqn_search_go (root : List (String × CfgVal)) : List String → List (List (String × CfgVal))
  | [] => []
  | level :: rest =>
    match alookup root level with
    | some (.dict d) => d :: fqn_search_go d rest
    | _ => []

/-- `fqn_search(root, fqn)`: yields `root` first, then the levels produced
by the descent loop. -/
def fqn_search (root : List (String × CfgVal)) (fqn : List String) :
    List (List (String × CfgVal)) :=
  root :: fqn_search_go root fqn

/-- C4: `fqn_search` yields the root level first; on an empty path it
yields only the root; for a non-empty path it descends into the first
segment exactly when that segment's value is a nested dict (continuing
recursively) and stops at the root otherwise; and on the concrete input
`a -> (b -> (c -> 1))` with path `[a, b, z]` it yields exactly three
levels: the root, the dict at `a`, and the dict at `b`. -/
theorem fqn_search_levels (root d : List (String × CfgVal)) (fqn : List String)
    (level : String) (rest : List String) :
    (fqn_search root fqn).head? = some root ∧
    fqn_search root [] = [root] ∧
    (alookup root level = some (.dict d) →
      fqn_search root (level :: rest) = root :: fqn_search d rest) ∧
    ((∀ d2, alookup root level ≠ some (.dict d2)) →
      fqn_search root (level :: rest) = [root]) ∧
    fqn_search [("a", .dict [("b", .dict [("c", .leaf 1)])])] ["a", "b", "z"] =
      [[("a", .dict [("b", .dict [("c", .leaf 1)])])],
       [("b", .dict [("c", .leaf 1)])],
       [("c", .leaf 1)]] := by
  refine ⟨rfl, rfl, ?_, ?_, rfl⟩
  · intro h
    rw [fqn_search, fqn_search_go, h, fqn_search]
  · intro h
    rw [fqn_search, fqn_search_go]
    cases hl : alookup root level with
    | none => rfl
    | some v =>
      cases v with
      | leaf n => rfl
      | dict d2 => exact absurd hl (h d2)

/- ## `Translator` / `translate_aliases` (utils.py lines 217-267)

`Translator.translate_mapping` iterates the items of a Python dict in
order, canonicalizes each key through `self.aliases.get(key, key)`,
raises `DuplicateAliasError` when the canonical key is already present in
the partial result, and stores `self.translate_value(value)`.
`translate_value` descends into nested mappings and list/tuple values
only when `self.recursive` is set, and returns the value unchanged
otherwise.  `Translator.translate` runs `translate_mapping` on the
top-level mapping (so the top level is always canonicalized, whatever the
flag).

Acyclic Python values are embedded as finite trees `PyVal`; dicts are
association lists with distinct keys, preserving insertion order.  (The
`RuntimeError`-to-`RecursionError` translation in `Translator.translate`
only matters for self-referential values, which a tree cannot represent;
those are treated in the heap-based embedding further below.) -/

/-- A Python value as `translate_value` distinguishes them: a `Mapping`,
a `list`/`tuple`, or anything else (opaque leaf). -/
inductive PyVal where
  | atom : Int → PyVal
  | map : List (String × PyVal) → PyVal
  | seq : List PyVal → PyVal

/-- Errors surfaced by the translation: `DuplicateAliasError` (carrying
the clashing canonical key), and — in the heap-based embedding — the
Python `RuntimeError` for exceeded recursion depth and the
`RecursionError` that `Translator.translate` converts it into. -/
inductive TErr where
  | duplicateAlias : String → TErr
  | runtimeRecursion : TErr
  | recursionCycle : TErr
  | invalidRef : TErr
deriving DecidableEq

/-- `self.aliases.get(key, key)`: the canonical name of a key, the key
itself when it has no alias. -/
def canonKey (aliases : List (String × String)) (key : String) : String :=
  (alookup aliases key).getD key

mutual

/-- `Translator.translate_value`: descend into mappings and sequences
only when `recursive` is set; otherwise return the value unchanged. -/
def translate_value (al : List (String × String)) (rec : Bool) : PyVal → Except TErr PyVal
  | .atom n => .ok (.atom n)
  | .map items =>
    if rec then Except.map PyVal.map (translate_items al rec items []) else .ok (.map items)
  | .seq vs =>
    if rec then Except.map PyVal.seq (translate_seq al rec vs) else .ok (.seq vs)

/-- The loop of `Translator.translate_mapping`: `acc` is the partial
result dict (insertion order preserved); a `DuplicateAliasError` is
raised when a canonical key is already present in it. -/
def translate_items (al : List (String × String)) (rec : Bool) :
    List (String × PyVal) → List (String × PyVal) → Except TErr (List (String × PyVal))
  | [], acc => .ok acc
  | (k, v) :: rest, acc =>
    if (acc.map Prod.fst).contains (canonKey al k) then
      .error (.duplicateAlias (canonKey al k))
    else
      match translate_value al rec v with
      | .error e => .error e
      | .ok w => translate_items al rec rest (acc ++ [(canonKey al k, w)])

/-- `Translator.translate_sequence`: translate each element. -/
def translate_seq (al : List (String × String)) (rec : Bool) :
    List PyVal → Except TErr (List PyVal)
  | [] => .ok []
  | v :: rest =>
    match translate_value al rec v with
    | .error e => .error e
    | .ok w =>
      match translate_seq al rec rest with
      | .error e => .error e
      | .ok ws => .ok (w :: ws)

end

/-- `translate_aliases(kwargs, aliases, recurse)` =
`Translator(aliases, recurse).translate(kwargs)`: canonicalize the
top-level mapping (on trees the `RuntimeError` handler is dead code). -/
def translate_aliases (kwargs : List (String × PyVal)) (aliases : List (String × String))
    (recurse : Bool) : Except TErr (List (String × PyVal)) :=
  translate_items aliases recurse kwargs []

mutual

/-- Specification-side total renaming: replace every key at every mapping
level by its canonical name, keeping structure and leaves unchanged. -/
def deepRename (al : List (String × String)) : PyVal → PyVal
  | .atom n => .atom n
  | .map items => .map (deepRenameItems al items)
  | .seq vs => .seq (deepRenameSeq al vs)

def deepRenameItems (al : List (String × String)) :
    List (String × PyVal) → List (String × PyVal)
  | [] => []
  | (k, v) :: rest => (canonKey al k, deepRename al v) :: deepRenameItems al rest

def deepRenameSeq (al : List (String × String)) : List PyVal → List PyVal
  | [] => []
  | v :: rest => deepRename al v :: deepRenameSeq al rest

end

/-- The claim's collision condition at one mapping level: two distinct
input keys canonicalize to the same output key. -/
def KeyCollision (al : List (String × String)) (keys : List String) : Prop :=
  ∃ k1 ∈ keys, ∃ k2 ∈ keys, k1 ≠ k2 ∧ canonKey al k1 = canonKey al k2

instance KeyCollision.dec (al : List (String × String)) (keys : List String) :
    Decidable (KeyCollision al keys) := by
  unfold KeyCollision
  infer_instance

mutual

/-- Some mapping level strictly inside the value (or the value itself, if
it is a mapping) has a key collision. -/
def valCollision (al : List (String × String)) : PyVal → Bool
  | .atom _ => false
  | .map items => decide (KeyCollision al (items.map Prod.fst)) || itemsCollision al items
  | .seq vs => seqCollision al vs

def itemsCollision (al : List (String × String)) : List (String × PyVal) → Bool
  | [] => false
  | (_, v) :: rest => valCollision al v || itemsCollision al rest

def seqCollision (al : List (String × String)) : List PyVal → Bool
  | [] => false
  | v :: rest => valCollision al v || seqCollision al rest

end

mutual

/-- Well-formedness inherited from Python dicts: at every mapping level
the keys are distinct. -/
def nodupDeepVal : PyVal → Bool
  | .atom _ => true
  | .map items => decide ((items.map Prod.fst).Nodup) && nodupDeepItems items
  | .seq vs => nodupDeepSeq vs

def nodupDeepItems : List (String × PyVal) → Bool
  | [] => true
  | (_, v) :: rest => nodupDeepVal v && nodupDeepItems rest

def nodupDeepSeq : List PyVal → Bool
  | [] => true
  | v :: rest => nodupDeepVal v && nodupDeepSeq rest

end

theorem deepRenameItems_eq_map (al : List (String × String)) (items : List (String × PyVal)) :
    deepRenameItems al items = items.map (fun p => (canonKey al p.1, deepRename al p.2)) := by
  induction items with
  | nil => rfl
  | cons p rest ih =>
    obtain ⟨k, v⟩ := p
    rw [deepRenameItems, List.map_cons, ih]

/-- With distinct input keys, "two distinct keys canonicalize to the same
output" is exactly the failure of `Nodup` on the canonicalized key list. -/
theorem keyCollision_iff_not_nodup (al : List (String × String)) (keys : List String)
    (h : keys.Nodup) :
    KeyCollision al keys ↔ ¬ (keys.map (canonKey al)).Nodup := by
  rw [List.nodup_map_iff_inj_on h, KeyCollision]
  push_neg
  constructor
  · rintro ⟨k1, hk1, k2, hk2, hne, heq⟩
    exact ⟨k1, hk1, k2, hk2, heq, hne⟩
  · rintro ⟨k1, hk1, k2, hk2, heq, hne⟩
    exact ⟨k1, hk1, k2, hk2, hne, heq⟩

theorem translate_value_false (al : List (String × String)) (v : PyVal) :
    translate_value al false v = .ok v := by
  cases v <;> simp [translate_value]

/-- Behavior of the `translate_mapping` loop in the non-recursive case,
for any partial result `acc`: with no canonical-key clash (against `acc`
or within the items) the loop succeeds and appends the renamed items;
with a clash it raises `DuplicateAliasError`. -/
theorem translate_items_false (al : List (String × String)) :
    ∀ (items acc : List (String × PyVal)), (acc.map Prod.fst).Nodup →
      ((acc.map Prod.fst ++ items.map (fun p => canonKey al p.1)).Nodup →
        translate_items al false items acc =
          .ok (acc ++ items.map (fun p => (canonKey al p.1, p.2)))) ∧
      (¬ (acc.map Prod.fst ++ items.map (fun p => canonKey al p.1)).Nodup →
        ∃ c, translate_items al false items acc = .error (.duplicateAlias c)) := by
  intro items
  induction items with
  | nil =>
    intro acc hacc
    refine ⟨fun _ => by simp [translate_items], fun hbad => absurd (by simpa using hacc) hbad⟩
  | cons p rest ih =>
    obtain ⟨k, v⟩ := p
    intro acc hacc
    by_cases hmem : canonKey al k ∈ acc.map Prod.fst
    · have hcontains : (acc.map Prod.fst).contains (canonKey al k) = true := by
        simpa [List.contains] using hmem
      refine ⟨fun hgood => ?_, fun _ => ?_⟩
      · exfalso
        rw [List.map_cons, List.nodup_append] at hgood
        exact hgood.2.2 hmem (by simp)
      · exact ⟨canonKey al k, by rw [translate_items, hcontains]; simp⟩
    · have hcontains : (acc.map Prod.fst).contains (canonKey al k) = false := by
        simpa [List.contains] using hmem
      have hacc2 : ((acc ++ [(canonKey al k, v)]).map Prod.fst).Nodup := by
        simp only [List.map_append, List.map_cons, List.map_nil, List.nodup_append]
        exact ⟨hacc, List.nodup_singleton _, by simpa using hmem⟩
      have ihspec := ih (acc ++ [(canonKey al k, v)]) hacc2
      have hkeys : acc.map Prod.fst ++ (canonKey al k) ::
          rest.map (fun p => canonKey al p.1) =
          (acc ++ [(canonKey al k, v)]).map Prod.fst ++
            rest.map (fun p => canonKey al p.1) := by
        simp
      have hstep : translate_items al false ((k, v) :: rest) acc =
          translate_items al false rest (acc ++ [(canonKey al k, v)]) := by
        rw [translate_items, hcontains]
        simp [translate_value_false]
      refine ⟨fun hgood => ?_, fun hbad => ?_⟩
      · rw [hstep, (ihspec.1 (by rw [← hkeys]; simpa using hgood))]
        simp
      · obtain ⟨c, hc⟩ := ihspec.2 (by rw [← hkeys]; simpa using hbad)
        exact ⟨c, by rw [hstep, hc]⟩

/-- C10: with the recursive flag false, a successful canonicalization
renames only the top-level keys and returns every value — nested mappings
and sequences included — exactly as given. -/
theorem translate_aliases_nonrecursive_frame (kwargs : List (String × PyVal))
    (al : List (String × String)) (out : List (String × PyVal))
    (h : translate_aliases kwargs al false = .ok out) :
    out = kwargs.map (fun p => (canonKey al p.1, p.2)) := by
  have hspec := translate_items_false al kwargs [] (by simp)
  by_cases hnd : (([] : List (String × PyVal)).map Prod.fst ++
      kwargs.map (fun p => canonKey al p.1)).Nodup
  · have := hspec.1 hnd
    rw [translate_aliases] at h
    rw [this] at h
    simpa using (Except.ok.inj h).symm
  · obtain ⟨c, hc⟩ := hspec.2 hnd
    rw [translate_aliases] at h
    rw [hc] at h
    exact absurd h (by simp)

theorem translate_aliases_nonrecursive_frame_witness :
    [("z", PyVal.map [("x", PyVal.atom 1)]), ("b", PyVal.atom 2)] =
      ([("a", PyVal.map [("x", PyVal.atom 1)]), ("b", PyVal.atom 2)]).map
        (fun p => (canonKey [("a", "z")] p.1, p.2)) :=
  translate_aliases_nonrecursive_frame
    [("a", PyVal.map [("x", PyVal.atom 1)]), ("b", PyVal.atom 2)] [("a", "z")]
    [("z", PyVal.map [("x", PyVal.atom 1)]), ("b", PyVal.atom 2)] rfl

theorem sizeOf_items_lt_map (items : List (String × PyVal)) :
    sizeOf items < sizeOf (PyVal.map items) := by
  simp only [PyVal.map.sizeOf_spec]
  omega

theorem sizeOf_vs_lt_seq (vs : List PyVal) :
    sizeOf vs < sizeOf (PyVal.seq vs) := by
  simp only [PyVal.seq.sizeOf_spec]
  omega

theorem sizeOf_val_lt_items (k : String) (v : PyVal) (rest : List (String × PyVal)) :
    sizeOf v < sizeOf ((k, v) :: rest) := by
  simp only [List.cons.sizeOf_spec, Prod.mk.sizeOf_spec]
  have : 0 < sizeOf k := by cases k; simp_arith
  omega

theorem sizeOf_rest_lt_items (k : String) (v : PyVal) (rest : List (String × PyVal)) :
    sizeOf rest < sizeOf ((k, v) :: rest) := by
  simp only [List.cons.sizeOf_spec, Prod.mk.sizeOf_spec]
  omega

theorem sizeOf_head_lt_vs (v : PyVal) (rest : List PyVal) :
    sizeOf v < sizeOf (v :: rest) := by
  simp only [List.cons.sizeOf_spec]
  omega

theorem sizeOf_tail_lt_vs (v : PyVal) (rest : List PyVal) :
    sizeOf rest < sizeOf (v :: rest) := by
  simp only [List.cons.sizeOf_spec]
  omega

/-- Joint characterization of the three mutually-recursive translation
functions in the recursive case, on well-formed (distinct keys at every
level) inputs: absence of collisions gives the fully renamed result, and
any collision at a visited mapping level gives `DuplicateAliasError`.
Stated for all subjects below a size bound, to allow strong induction
across the mutual recursion. -/
theorem translate_true_spec (al : List (String × String)) : ∀ n : Nat,
    (∀ v : PyVal, sizeOf v < n → nodupDeepVal v = true →
      (valCollision al v = false → translate_value al true v = .ok (deepRename al v)) ∧
      (valCollision al v = true →
        ∃ c, translate_value al true v = .error (.duplicateAlias c))) ∧
    (∀ items : List (String × PyVal), sizeOf items < n → nodupDeepItems items = true →
      ∀ acc : List (String × PyVal), (acc.map Prod.fst).Nodup →
        (((acc.map Prod.fst ++ items.map (fun p => canonKey al p.1)).Nodup ∧
            itemsCollision al items = false) →
          translate_items al true items acc = .ok (acc ++ deepRenameItems al items)) ∧
        ((¬ (acc.map Prod.fst ++ items.map (fun p => canonKey al p.1)).Nodup ∨
            itemsCollision al items = true) →
          ∃ c, translate_items al true items acc = .error (.duplicateAlias c))) ∧
    (∀ vs : List PyVal, sizeOf vs < n → nodupDeepSeq vs = true →
      (seqCollision al vs = false → translate_seq al true vs = .ok (deepRenameSeq al vs)) ∧
      (seqCollision al vs = true →
        ∃ c, translate_seq al true vs = .error (.duplicateAlias c))) := by
  intro n
  induction n using Nat.strong_induction_on with
  | _ n ih =>
  refine ⟨?_, ?_, ?_⟩
  · -- translate_value
    intro v hv hnd
    cases v with
    | atom m =>
      exact ⟨fun _ => by simp [translate_value, deepRename],
             fun hcol => by simp [valCollision] at hcol⟩
    | map items =>
      have hksub := (ih (sizeOf (PyVal.map items)) hv).2.1 items (sizeOf_items_lt_map items)
      simp only [nodupDeepVal, Bool.and_eq_true, decide_eq_true_eq] at hnd
      have hspec := hksub hnd.2 [] (by simp)
      constructor
      · intro hcol
        simp only [valCollision, Bool.or_eq_false_iff, decide_eq_false_iff_not] at hcol
        have hok := hspec.1 ⟨by
            simpa using (not_not.mp
              ((keyCollision_iff_not_nodup al (items.map Prod.fst) hnd.1).not.mp hcol.1)),
          hcol.2⟩
        rw [translate_value]
        simp only [if_true, hok, Except.map]
        simp [deepRename]
      · intro hcol
        simp only [valCollision, Bool.or_eq_true, decide_eq_true_eq] at hcol
        have hbad : ¬ (([] : List (String × PyVal)).map Prod.fst ++
            items.map (fun p => canonKey al p.1)).Nodup ∨
            itemsCollision al items = true := by
          rcases hcol with hkc | hic
          · exact Or.inl (by
              simpa using (keyCollision_iff_not_nodup al (items.map Prod.fst) hnd.1).mp hkc)
          · exact Or.inr hic
        obtain ⟨c, hc⟩ := hspec.2 hbad
        refine ⟨c, ?_⟩
        rw [translate_value]
        simp [hc, Except.map]
    | seq vs =>
      have hssub := (ih (sizeOf (PyVal.seq vs)) hv).2.2 vs (sizeOf_vs_lt_seq vs)
      simp only [nodupDeepVal] at hnd
      have hspec := hssub hnd
      constructor
      · intro hcol
        simp only [valCollision] at hcol
        rw [translate_value]
        simp [hspec.1 hcol, Except.map, deepRename]
      · intro hcol
        simp only [valCollision] at hcol
        obtain ⟨c, hc⟩ := hspec.2 hcol
        refine ⟨c, ?_⟩
        rw [translate_value]
        simp [hc, Except.map]
  · -- translate_items
    intro items hsz hnd acc hacc
    cases items with
    | nil =>
      refine ⟨fun _ => by simp [translate_items, deepRenameItems],
              fun hbad => ?_⟩
      rcases hbad with hbad | hbad
      · exact absurd (by simpa using hacc) hbad
      · simp [itemsCollision] at hbad
    | cons p rest =>
      obtain ⟨k, v⟩ := p
      simp only [nodupDeepItems, Bool.and_eq_true] at hnd
      by_cases hmem : canonKey al k ∈ acc.map Prod.fst
      · have hcontains : (acc.map Prod.fst).contains (canonKey al k) = true := by
          simpa [List.contains] using hmem
        refine ⟨fun hgood => ?_, fun _ => ?_⟩
        · exfalso
          have := hgood.1
          rw [List.map_cons, List.nodup_append] at this
          exact this.2.2 hmem (by simp)
        · exact ⟨canonKey al k, by rw [translate_items, hcontains]; simp⟩
      · have hcontains : (acc.map Prod.fst).contains (canonKey al k) = false := by
          simpa [List.contains] using hmem
        have hvspec := (ih (sizeOf ((k, v) :: rest)) hsz).1 v
          (sizeOf_val_lt_items k v rest) hnd.1
        by_cases hvc : valCollision al v = true
        · obtain ⟨c, hc⟩ := hvspec.2 hvc
          have hstep : translate_items al true ((k, v) :: rest) acc =
              .error (.duplicateAlias c) := by
            rw [translate_items, hcontains]
            simp [hc]
          refine ⟨fun hgood => ?_, fun _ => ⟨c, hstep⟩⟩
          exfalso
          have := hgood.2
          simp [itemsCollision, hvc] at this
        · have hvok := hvspec.1 (by simpa using hvc)
          have hstep : translate_items al true ((k, v) :: rest) acc =
              translate_items al true rest (acc ++ [(canonKey al k, deepRename al v)]) := by
            rw [translate_items, hcontains]
            simp [hvok]
          have hacc2 : ((acc ++ [(canonKey al k, deepRename al v)]).map Prod.fst).Nodup := by
            simp only [List.map_append, List.map_cons, List.map_nil, List.nodup_append]
            exact ⟨hacc, List.nodup_singleton _, by simpa using hmem⟩
          have ihrest := (ih (sizeOf ((k, v) :: rest)) hsz).2.1 rest
            (sizeOf_rest_lt_items k v rest) hnd.2
            (acc ++ [(canonKey al k, deepRename al v)]) hacc2
          have hkeys : acc.map Prod.fst ++ canonKey al k ::
              rest.map (fun p => canonKey al p.1) =
              (acc ++ [(canonKey al k, deepRename al v)]).map Prod.fst ++
                rest.map (fun p => canonKey al p.1) := by
            simp
          refine ⟨fun hgood => ?_, fun hbad => ?_⟩
          · have hnk : ((acc ++ [(canonKey al k, deepRename al v)]).map Prod.fst ++
                rest.map (fun p => canonKey al p.1)).Nodup := by
              rw [← hkeys]
              simpa using hgood.1
            have hic : itemsCollision al rest = false := by
              have := hgood.2
              simp only [itemsCollision, Bool.or_eq_false_iff] at this
              exact this.2
            rw [hstep, ihrest.1 ⟨hnk, hic⟩]
            simp [deepRenameItems]
          · have hbad2 : ¬ ((acc ++ [(canonKey al k, deepRename al v)]).map Prod.fst ++
                rest.map (fun p => canonKey al p.1)).Nodup ∨
                itemsCollision al rest = true := by
              rcases hbad with hbad | hbad
              · refine Or.inl ?_
                rw [← hkeys]
                simpa using hbad
              · simp only [itemsCollision, Bool.or_eq_true] at hbad
                rcases hbad with hbad | hbad
                · exact absurd hbad hvc
                · exact Or.inr hbad
            obtain ⟨c, hc⟩ := ihrest.2 hbad2
            exact ⟨c, by rw [hstep, hc]⟩
  · -- translate_seq
    intro vs hsz hnd
    cases vs with
    | nil =>
      exact ⟨fun _ => by simp [translate_seq, deepRenameSeq],
             fun hcol => by simp [seqCollision] at hcol⟩
    | cons v rest =>
      simp only [nodupDeepSeq, Bool.and_eq_true] at hnd
      have hvspec := (ih (sizeOf (v :: rest)) hsz).1 v (sizeOf_head_lt_vs v rest) hnd.1
      have hrspec := (ih (sizeOf (v :: rest)) hsz).2.2 rest (sizeOf_tail_lt_vs v rest) hnd.2
      constructor
      · intro hcol
        simp only [seqCollision, Bool.or_eq_false_iff] at hcol
        rw [translate_seq, hvspec.1 hcol.1, hrspec.1 hcol.2]
        simp [deepRenameSeq]
      · intro hcol
        simp only [seqCollision, Bool.or_eq_true] at hcol
        by_cases hvc : valCollision al v = true
        · obtain ⟨c, hc⟩ := hvspec.2 hvc
          exact ⟨c, by rw [translate_seq, hc]⟩
        · have hrc : seqCollision al rest = true := by
            rcases hcol with hcol | hcol
            · exact absurd hcol hvc
            · exact hcol
          obtain ⟨c, hc⟩ := hrspec.2 hrc
          refine ⟨c, ?_⟩
          rw [translate_seq, hvspec.1 (by simpa using hvc), hc]

/-- C5: on a well-formed input mapping (distinct keys at every level),
`translate_aliases` raises `DuplicateAliasError` exactly when two
distinct input keys at some canonicalized mapping level (the top level
always; nested levels only under the recursive flag) map to the same
canonical key; otherwise it succeeds and returns the mapping with every
processed key replaced by its canonical name (keys without an alias kept
unchanged, values translated according to the flag). -/
theorem translate_aliases_duplicate_iff (kwargs : List (String × PyVal))
    (al : List (String × String)) (rec : Bool)
    (h1 : (kwargs.map Prod.fst).Nodup) (h2 : nodupDeepItems kwargs = true) :
    ((∃ c, translate_aliases kwargs al rec = .error (.duplicateAlias c)) ↔
      (KeyCollision al (kwargs.map Prod.fst) ∨
        (rec = true ∧ itemsCollision al kwargs = true))) ∧
    (¬ (KeyCollision al (kwargs.map Prod.fst) ∨
        (rec = true ∧ itemsCollision al kwargs = true)) →
      translate_aliases kwargs al rec =
        .ok (kwargs.map (fun p =>
          (canonKey al p.1, if rec then deepRename al p.2 else p.2)))) := by
  cases rec with
  | false =>
    have hspec := translate_items_false al kwargs [] (by simp)
    constructor
    · constructor
      · rintro ⟨c, hc⟩
        by_contra hno
        push_neg at hno
        have hnkc : ¬ KeyCollision al (kwargs.map Prod.fst) := hno.1
        have hnodup : (kwargs.map (fun p => canonKey al p.1)).Nodup := by
          have := (keyCollision_iff_not_nodup al (kwargs.map Prod.fst) h1).not.mp hnkc
          rw [not_not] at this
          simpa [Function.comp] using this
        have := hspec.1 (by simpa using hnodup)
        rw [translate_aliases] at hc
        rw [this] at hc
        exact absurd hc (by simp)
      · rintro (hkc | ⟨hfalse, _⟩)
        · have hnn : ¬ (kwargs.map (fun p => canonKey al p.1)).Nodup := by
            have := (keyCollision_iff_not_nodup al (kwargs.map Prod.fst) h1).mp hkc
            simpa [Function.comp] using this
          obtain ⟨c, hc⟩ := hspec.2 (by simpa using hnn)
          exact ⟨c, by rw [translate_aliases, hc]⟩
        · exact absurd hfalse (by simp)
    · intro hno
      push_neg at hno
      have hnodup : (kwargs.map (fun p => canonKey al p.1)).Nodup := by
        have := (keyCollision_iff_not_nodup al (kwargs.map Prod.fst) h1).not.mp hno.1
        rw [not_not] at this
        simpa [Function.comp] using this
      have := hspec.1 (by simpa using hnodup)
      rw [translate_aliases, this]
      simp
  | true =>
    have hspec := (translate_true_spec al (sizeOf kwargs + 1)).2.1 kwargs
      (by omega) h2 [] (by simp)
    constructor
    · constructor
      · rintro ⟨c, hc⟩
        by_contra hno
        push_neg at hno
        have hnkc : ¬ KeyCollision al (kwargs.map Prod.fst) := hno.1
        have hic : itemsCollision al kwargs = false := by
          have := hno.2 rfl
          simpa using this
        have hnodup : (kwargs.map (fun p => canonKey al p.1)).Nodup := by
          have := (keyCollision_iff_not_nodup al (kwargs.map Prod.fst) h1).not.mp hnkc
          rw [not_not] at this
          simpa [Function.comp] using this
        have := hspec.1 ⟨by simpa using hnodup, hic⟩
        rw [translate_aliases] at hc
        rw [this] at hc
        exact absurd hc (by simp)
      · rintro (hkc | ⟨_, hic⟩)
        · have hnn : ¬ (kwargs.map (fun p => canonKey al p.1)).Nodup := by
            have := (keyCollision_iff_not_nodup al (kwargs.map Prod.fst) h1).mp hkc
            simpa [Function.comp] using this
          obtain ⟨c, hc⟩ := hspec.2 (Or.inl (by simpa using hnn))
          exact ⟨c, by rw [translate_aliases, hc]⟩
        · obtain ⟨c, hc⟩ := hspec.2 (Or.inr hic)
          exact ⟨c, by rw [translate_aliases, hc]⟩
    · intro hno
      push_neg at hno
      have hic : itemsCollision al kwargs = false := by
        have := hno.2 rfl
        simpa using this
      have hnodup : (kwargs.map (fun p => canonKey al p.1)).Nodup := by
        have := (keyCollision_iff_not_nodup al (kwargs.map Prod.fst) h1).not.mp hno.1
        rw [not_not] at this
        simpa [Function.comp] using this
      have := hspec.1 ⟨by simpa using hnodup, hic⟩
      rw [translate_aliases, this, deepRenameItems_eq_map]
      simp

theorem translate_aliases_duplicate_iff_witness :
    (∃ c, translate_aliases [("a", PyVal.atom 1), ("b", PyVal.atom 2)]
        [("a", "b")] false = .error (.duplicateAlias c)) ∧
    translate_aliases [("x", PyVal.atom 1), ("y", PyVal.atom 2)] [("x", "z")] false =
      .ok [("z", PyVal.atom 1), ("y", PyVal.atom 2)] := by
  constructor
  · exact (translate_aliases_duplicate_iff [("a", PyVal.atom 1), ("b", PyVal.atom 2)]
      [("a", "b")] false (by decide) (by decide)).1.mpr
      (Or.inl ⟨"a", by decide, "b", by decide, by decide, by decide⟩)
  · have := (translate_aliases_duplicate_iff [("x", PyVal.atom 1), ("y", PyVal.atom 2)]
      [("x", "z")] false (by decide) (by decide)).2 (by
        rintro (hkc | ⟨hfalse, _⟩)
        · exact absurd hkc (by decide)
        · exact absurd hfalse (by simp))
    simpa using this

/- ## Cyclic inputs to `Translator.translate` (utils.py lines 243-249)

Python values can be self-referential (a dict reachable from itself
through its own values).  Recursive canonicalization of such a value
recurses forever in principle; CPython stops it with a `RuntimeError`
("maximum recursion depth exceeded"), which `Translator.translate`
catches and converts into the dbt `RecursionError` ("Cycle detected in a
value passed to translate!") — a depth bound, not cycle tracking.

To represent sharing and cycles, values are embedded as a heap: a list of
objects indexed by address, where mapping values and sequence elements
are addresses.  The recursion-depth limit becomes an explicit fuel
parameter, decremented at every nested `translate_value` /
`translate_mapping` / `translate_sequence` call; exhausted fuel is the
embedded `RuntimeError`. -/

/-- A heap object: an opaque leaf, a string-keyed mapping whose values
are heap addresses, or a sequence of heap addresses. -/
inductive HObj where
  | atom : Int → HObj
  | map : List (String × Nat) → HObj
  | seq : List Nat → HObj
deriving DecidableEq

/-- Translation output over the heap: fresh translated structure, or (in
the non-recursive branch of `translate_value`) the original object,
returned unchanged and identified by its address. -/
inductive HOut where
  | atom : Int → HOut
  | map : List (String × HOut) → HOut
  | seq : List HOut → HOut
  | sameObj : Nat → HOut

/-- The addresses a heap object refers to directly. -/
def hchildren : HObj → List Nat
  | .atom _ => []
  | .map items => items.map Prod.snd
  | .seq vs => vs

mutual

/-- Heap-based `Translator.translate_value` with a recursion-depth bound:
fuel 0 is the Python `RuntimeError` for exceeded recursion depth. -/
def htv (heap : List HObj) (al : List (String × String)) (rec : Bool) :
    Nat → Nat → Except TErr HOut
  | 0, _ => .error .runtimeRecursion
  | fuel + 1, addr =>
    match heap.get? addr with
    | none => .error .invalidRef
    | some (.atom n) => .ok (.atom n)
    | some (.map items) =>
      if rec then Except.map HOut.map (htm heap al rec fuel items [])
      else .ok (.sameObj addr)
    | some (.seq vs) =>
      if rec then Except.map HOut.seq (hts heap al rec fuel vs)
      else .ok (.sameObj addr)

/-- Heap-based `Translator.translate_mapping` loop (the loop itself stays
in one stack frame; each `translate_value` call consumes a frame). -/
def htm (heap : List HObj) (al : List (String × String)) (rec : Bool) :
    Nat → List (String × Nat) → List (String × HOut) → Except TErr (List (String × HOut))
  | 0, _, _ => .error .runtimeRecursion
  | _ + 1, [], acc => .ok acc
  | fuel + 1, (k, a) :: rest, acc =>
    if (acc.map Prod.fst).contains (canonKey al k) then
      .error (.duplicateAlias (canonKey al k))
    else
      match htv heap al rec fuel a with
      | .error e => .error e
      | .ok w => htm heap al rec (fuel + 1) rest (acc ++ [(canonKey al k, w)])

/-- Heap-based `Translator.translate_sequence`. -/
def hts (heap : List HObj) (al : List (String × String)) (rec : Bool) :
    Nat → List Nat → Except TErr (List HOut)
  | 0, _ => .error .runtimeRecursion
  | _ + 1, [] => .ok []
  | fuel + 1, a :: rest =>
    match htv heap al rec fuel a with
    | .error e => .error e
    | .ok w =>
      match hts heap al rec (fuel + 1) rest with
      | .error e => .error e
      | .ok ws => .ok (w :: ws)

end

/-- Heap-based `Translator.translate`: run `translate_mapping` on the
top-level mapping and convert the recursion-depth `RuntimeError` into the
dbt `RecursionError` ("Cycle detected"). -/
def htranslate (heap : List HObj) (al : List (String × String)) (rec : Bool)
    (fuel : Nat) (items : List (String × Nat)) : Except TErr (List (String × HOut)) :=
  match htm heap al rec fuel items [] with
  | .error .runtimeRecursion => .error .recursionCycle
  | r => r

/-- One reference step in the heap. -/
def hstepB (heap : List HObj) (a b : Nat) : Bool :=
  match heap.get? a with
  | some obj => (hchildren obj).contains b
  | none => false

/-- Consecutive reference steps along a list of addresses. -/
def pathStepsB (heap : List HObj) : List Nat → Bool
  | [] => true
  | [_] => true
  | a :: b :: rest => hstepB heap a b && pathStepsB heap (b :: rest)

/-- `cyc` is a reference cycle: non-empty, consecutive steps hold, and the
last address steps back to the first. -/
def isCycleB (heap : List HObj) (cyc : List Nat) : Bool :=
  match cyc with
  | [] => false
  | a :: _ => pathStepsB heap (cyc ++ [a])

/-- Every address in the heap that an object mentions exists. -/
def heapClosed (heap : List HObj) : Prop :=
  ∀ obj ∈ heap, ∀ a ∈ hchildren obj, a < heap.length

/-- The keys of a mapping object have pairwise distinct canonical names. -/
def objKeysNodupB (al : List (String × String)) : HObj → Bool
  | .map items => decide ((items.map (fun p => canonKey al p.1)).Nodup)
  | _ => true

/-- No mapping object in the heap has two keys with the same canonical
name (so the only error a traversal can hit is fuel exhaustion). -/
def heapNoCollision (heap : List HObj) (al : List (String × String)) : Prop :=
  ∀ obj ∈ heap, objKeysNodupB al obj = true

instance heapClosed.dec (heap : List HObj) : Decidable (heapClosed heap) := by
  unfold heapClosed
  infer_instance

instance heapNoCollision.dec (heap : List HObj) (al : List (String × String)) :
    Decidable (heapNoCollision heap al) := by
  unfold heapNoCollision
  infer_instance

theorem pathStepsB_consecutive (heap : List HObj) :
    ∀ l : List Nat, pathStepsB heap l = true →
      ∀ i : Nat, (h : i + 1 < l.length) →
        hstepB heap (l.get ⟨i, by omega⟩) (l.get ⟨i + 1, h⟩) = true := by
  intro l
  induction l with
  | nil => intro _ i h; simp at h
  | cons a rest ih =>
    intro hp i h
    cases rest with
    | nil => simp at h
    | cons b rest2 =>
      rw [pathStepsB, Bool.and_eq_true] at hp
      cases i with
      | zero => simpa using hp.1
      | succ j =>
        have := ih hp.2 j (by simpa using h)
        simpa using this

/-- Rotating around the cycle: every address on a cycle steps to another
address on the cycle. -/
theorem cycle_successor (heap : List HObj) (cyc : List Nat)
    (hcy : isCycleB heap cyc = true) (a : Nat) (ha : a ∈ cyc) :
    ∃ b ∈ cyc, hstepB heap a b = true := by
  cases hc : cyc with
  | nil => subst hc; simp at ha
  | cons c rest =>
    subst hc
    rw [isCycleB] at hcy
    obtain ⟨i, hget⟩ := List.mem_iff_get.mp ha
    have hlen : (i : Nat) + 1 < ((c :: rest) ++ [c]).length := by
      have := i.isLt
      simp only [List.length_append, List.length_cons, List.length_singleton]
      simp only [List.length_cons] at this
      omega
    have hstep := pathStepsB_consecutive heap ((c :: rest) ++ [c]) hcy i hlen
    have hleft : ((c :: rest) ++ [c]).get ⟨(i : Nat), by omega⟩ = a := by
      rw [List.get_append _ i.isLt]
      exact hget
    by_cases hend : (i : Nat) + 1 < (c :: rest).length
    · refine ⟨((c :: rest) ++ [c]).get ⟨(i : Nat) + 1, hlen⟩, ?_, by rw [← hleft]; exact hstep⟩
      rw [List.get_append _ hend]
      exact List.get_mem _ _ _
    · have hieq : (i : Nat) + 1 = (c :: rest).length := by
        have := i.isLt
        omega
      refine ⟨((c :: rest) ++ [c]).get ⟨(i : Nat) + 1, hlen⟩, ?_, by rw [← hleft]; exact hstep⟩
      have hval : ((c :: rest) ++ [c]).get ⟨(i : Nat) + 1, hlen⟩ = c := by
        rw [List.get_append_right _ _ (by omega)]
        · simp
        · simp only [List.length_singleton]
          omega
      rw [hval]
      exact List.mem_cons_self c rest

/-- On a closed, collision-free heap containing a reference cycle `cyc`,
the recursive translation (a) only ever returns a value or exhausts its
fuel, and (b) exhausts its fuel — for EVERY fuel value — whenever its
argument lies on the cycle (or, for the mapping/sequence loops, contains
a reference into the cycle). -/
theorem heap_cycle_spec (heap : List HObj) (al : List (String × String)) (cyc : List Nat)
    (hcl : heapClosed heap) (hnc : heapNoCollision heap al)
    (hcy : isCycleB heap cyc = true) :
    ∀ fuel : Nat,
      (∀ a, a < heap.length →
        ((∃ w, htv heap al true fuel a = .ok w) ∨
          htv heap al true fuel a = .error .runtimeRecursion)) ∧
      (∀ a, a ∈ cyc → htv heap al true fuel a = .error .runtimeRecursion) ∧
      (∀ items acc, (∀ p ∈ items, p.2 < heap.length) →
        (acc.map Prod.fst ++ items.map (fun p => canonKey al p.1)).Nodup →
          (((∃ ws, htm heap al true fuel items acc = .ok ws) ∨
            htm heap al true fuel items acc = .error .runtimeRecursion) ∧
          ((∃ p ∈ items, p.2 ∈ cyc) →
            htm heap al true fuel items acc = .error .runtimeRecursion))) ∧
      (∀ vs, (∀ a ∈ vs, a < heap.length) →
        (((∃ ws, hts heap al true fuel vs = .ok ws) ∨
          hts heap al true fuel vs = .error .runtimeRecursion) ∧
        ((∃ a ∈ vs, a ∈ cyc) →
          hts heap al true fuel vs = .error .runtimeRecursion))) := by
  intro fuel
  induction fuel using Nat.strong_induction_on with
  | _ fuel ih =>
  cases fuel with
  | zero =>
    refine ⟨fun a _ => Or.inr (by rw [htv]), fun a _ => by rw [htv], ?_, ?_⟩
    · exact fun items acc _ _ => ⟨Or.inr (by rw [htm]), fun _ => by rw [htm]⟩
    · exact fun vs _ => ⟨Or.inr (by rw [hts]), fun _ => by rw [hts]⟩
  | succ f =>
  have IH := ih f (by omega)
  refine ⟨?_, ?_, ?_, ?_⟩
  · -- htv on a valid address: a value or fuel exhaustion
    intro a halen
    obtain ⟨obj, hobj⟩ : ∃ obj, heap.get? a = some obj :=
      ⟨_, List.get?_eq_get halen⟩
    have hmemobj : obj ∈ heap := List.get?_mem hobj
    cases obj with
    | atom n => exact Or.inl ⟨.atom n, by rw [htv, hobj]⟩
    | map items =>
      have hvalid : ∀ p ∈ items, p.2 < heap.length := fun p hp =>
        hcl _ hmemobj p.2 (List.mem_map_of_mem Prod.snd hp)
      have hnd : (([] : List (String × HOut)).map Prod.fst ++
          items.map (fun p => canonKey al p.1)).Nodup := by
        have := hnc _ hmemobj
        simp only [objKeysNodupB, decide_eq_true_eq] at this
        simpa using this
      have hm := IH.2.2.1 items [] hvalid hnd
      rcases hm.1 with ⟨ws, hws⟩ | hrr
      · exact Or.inl ⟨.map ws, by rw [htv, hobj]; simp [hws, Except.map]⟩
      · exact Or.inr (by rw [htv, hobj]; simp [hrr, Except.map])
    | seq vs =>
      have hvalid : ∀ b ∈ vs, b < heap.length := fun b hb => hcl _ hmemobj b hb
      have hs := IH.2.2.2 vs hvalid
      rcases hs.1 with ⟨ws, hws⟩ | hrr
      · exact Or.inl ⟨.seq ws, by rw [htv, hobj]; simp [hws, Except.map]⟩
      · exact Or.inr (by rw [htv, hobj]; simp [hrr, Except.map])
  · -- htv on a cycle address: always fuel exhaustion
    intro a ha
    obtain ⟨b, hbcyc, hstep⟩ := cycle_successor heap cyc hcy a ha
    cases hobj : heap.get? a with
    | none => rw [hstepB, hobj] at hstep; simp at hstep
    | some obj =>
      have hbchild : b ∈ hchildren obj := by
        rw [hstepB, hobj] at hstep
        simpa [List.contains] using hstep
      have hmemobj : obj ∈ heap := List.get?_mem hobj
      cases obj with
      | atom n => simp [hchildren] at hbchild
      | map items =>
        obtain ⟨ka, hka⟩ : ∃ ka, (ka, b) ∈ items := by
          simpa [hchildren] using hbchild
        have hvalid : ∀ q ∈ items, q.2 < heap.length := fun q hq =>
          hcl _ hmemobj q.2 (List.mem_map_of_mem Prod.snd hq)
        have hnd : (([] : List (String × HOut)).map Prod.fst ++
            items.map (fun p => canonKey al p.1)).Nodup := by
          have := hnc _ hmemobj
          simp only [objKeysNodupB, decide_eq_true_eq] at this
          simpa using this
        have herr := (IH.2.2.1 items [] hvalid hnd).2 ⟨(ka, b), hka, hbcyc⟩
        rw [htv, hobj]
        simp [herr, Except.map]
      | seq vs =>
        have hvalid : ∀ c ∈ vs, c < heap.length := fun c hc => hcl _ hmemobj c hc
        have herr := (IH.2.2.2 vs hvalid).2
          ⟨b, by simpa [hchildren] using hbchild, hbcyc⟩
        rw [htv, hobj]
        simp [herr, Except.map]
  · -- the mapping loop
    intro items
    induction items with
    | nil =>
      intro acc _ _
      exact ⟨Or.inl ⟨acc, by rw [htm]⟩, by rintro ⟨p, hp, _⟩; cases hp⟩
    | cons q rest ihq =>
      obtain ⟨k, a0⟩ := q
      intro acc hvalid hnd
      have hck : canonKey al k ∉ acc.map Prod.fst := by
        simp only [List.map_cons] at hnd
        rw [List.nodup_append] at hnd
        intro hmem
        exact hnd.2.2 hmem (by simp)
      have hcont : (acc.map Prod.fst).contains (canonKey al k) = false := by
        simpa [List.contains] using hck
      have ha0 : a0 < heap.length := hvalid (k, a0) (by simp)
      rcases IH.1 a0 ha0 with ⟨w, hw⟩ | hrr
      · have hstep3 : htm heap al true (f + 1) ((k, a0) :: rest) acc =
            htm heap al true (f + 1) rest (acc ++ [(canonKey al k, w)]) := by
          rw [htm, hcont]
          simp [hw]
        have hvalid2 : ∀ p ∈ rest, p.2 < heap.length := fun p hp =>
          hvalid p (by simp [hp])
        have hnd2 : ((acc ++ [(canonKey al k, w)]).map Prod.fst ++
            rest.map (fun p => canonKey al p.1)).Nodup := by
          simp only [List.map_cons] at hnd
          have : acc.map Prod.fst ++ canonKey al k ::
              rest.map (fun p => canonKey al p.1) =
              (acc ++ [(canonKey al k, w)]).map Prod.fst ++
                rest.map (fun p => canonKey al p.1) := by simp
          rw [← this]
          exact hnd
        have hrest := ihq (acc ++ [(canonKey al k, w)]) hvalid2 hnd2
        constructor
        · rcases hrest.1 with ⟨ws, hws⟩ | hrr2
          · exact Or.inl ⟨ws, by rw [hstep3, hws]⟩
          · exact Or.inr (by rw [hstep3, hrr2])
        · rintro ⟨p, hp, hpcyc⟩
          rcases List.mem_cons.mp hp with hphead | hptail
          · exfalso
            have : p.2 = a0 := by rw [hphead]
            rw [this] at hpcyc
            have := IH.2.1 a0 hpcyc
            rw [this] at hw
            exact absurd hw (by simp)
          · have := hrest.2 ⟨p, hptail, hpcyc⟩
            rw [hstep3, this]
      · have hstep3 : htm heap al true (f + 1) ((k, a0) :: rest) acc =
            .error .runtimeRecursion := by
          rw [htm, hcont]
          simp [hrr]
        exact ⟨Or.inr hstep3, fun _ => hstep3⟩
  · -- the sequence loop
    intro vs
    induction vs with
    | nil =>
      intro _
      exact ⟨Or.inl ⟨[], by rw [hts]⟩, by rintro ⟨a, ha, _⟩; cases ha⟩
    | cons a0 rest ihq =>
      intro hvalid
      have ha0 : a0 < heap.length := hvalid a0 (by simp)
      have hrest := ihq (fun a ha => hvalid a (by simp [ha]))
      rcases IH.1 a0 ha0 with ⟨w, hw⟩ | hrr
      · constructor
        · rcases hrest.1 with ⟨ws, hws⟩ | hrr2
          · exact Or.inl ⟨w :: ws, by rw [hts]; simp [hw, hws]⟩
          · exact Or.inr (by rw [hts]; simp [hw, hrr2])
        · rintro ⟨b, hb, hbcyc⟩
          rcases List.mem_cons.mp hb with hbhead | hbtail
          · exfalso
            rw [hbhead] at hbcyc
            have := IH.2.1 a0 hbcyc
            rw [this] at hw
            exact absurd hw (by simp)
          · have := hrest.2 ⟨b, hbtail, hbcyc⟩
            rw [hts]
            simp [hw, this]
      · have hstep3 : hts heap al true (f + 1) (a0 :: rest) =
            .error .runtimeRecursion := by
          rw [hts]
          simp [hrr]
        exact ⟨Or.inr hstep3, fun _ => hstep3⟩

/-- C8: recursive canonicalization of a self-referential structure — a
mapping lying on a reference cycle of a closed, collision-free heap —
never runs forever: for EVERY recursion-depth bound it exhausts the
bound (the Python `RuntimeError`), which `Translator.translate` converts
into the cycle error (`RecursionError`); the detection comes from the
depth bound alone, with no cycle tracking in the traversal. -/
theorem htranslate_cyclic_raises_cycle_error (heap : List HObj)
    (al : List (String × String)) (cyc : List Nat) (addr : Nat)
    (items : List (String × Nat)) (fuel : Nat)
    (hcl : heapClosed heap) (hnc : heapNoCollision heap al)
    (hcy : isCycleB heap cyc = true) (hmem : addr ∈ cyc)
    (hobj : heap.get? addr = some (.map items)) :
    htranslate heap al true fuel items = .error .recursionCycle := by
  have hmemobj : HObj.map items ∈ heap := List.get?_mem hobj
  obtain ⟨b, hbcyc, hstep⟩ := cycle_successor heap cyc hcy addr hmem
  have hbchild : b ∈ hchildren (HObj.map items) := by
    rw [hstepB, hobj] at hstep
    simpa [List.contains] using hstep
  obtain ⟨ka, hka⟩ : ∃ ka, (ka, b) ∈ items := by
    simpa [hchildren] using hbchild
  have hvalid : ∀ p ∈ items, p.2 < heap.length := fun p hp =>
    hcl _ hmemobj p.2 (List.mem_map_of_mem Prod.snd hp)
  have hnd : (([] : List (String × HOut)).map Prod.fst ++
      items.map (fun p => canonKey al p.1)).Nodup := by
    have := hnc _ hmemobj
    simp only [objKeysNodupB, decide_eq_true_eq] at this
    simpa using this
  have herr := ((heap_cycle_spec heap al cyc hcl hnc hcy fuel).2.2.1 items [] hvalid hnd).2
    ⟨(ka, b), hka, hbcyc⟩
  rw [htranslate, herr]

theorem htranslate_cyclic_raises_cycle_error_witness :
    htranslate [HObj.map [("self", 0)]] [] true 5 [("self", 0)] =
      .error .recursionCycle :=
  htranslate_cyclic_raises_cycle_error [HObj.map [("self", 0)]] [] [0] 0
    [("self", 0)] 5 (by decide) (by decide) (by decide) (by decide) rfl

/- ## Run and clone task behavior

`RunTask.execute_nodes` / `RunTask.get_graph_queue` /
`CloneTask.get_graph_queue` live in `dbt/task/run.py` and
`dbt/task/clone.py`, which are not part of this source slice; only their
unit tests (`tests/unit/task/test_run.py`, `tests/unit/task/test_clone.py`)
are.  The definitions below are therefore modelled from the
specification, at the granularity those tests observe. -/

/-- The condition the run loop (`run_queue`) terminates with: normal
completion, a process-level interrupt (keyboard interrupt or system
exit), or an ordinary application-level exception. -/
inductive RunExc where
  | keyboardInterrupt : RunExc
  | systemExit : RunExc
  | ordinary : Nat → RunExc
deriving DecidableEq

/-- Process-level interrupts are exactly keyboard interrupt and system
exit. -/
def RunExc.isInterrupt : RunExc → Bool
  | .keyboardInterrupt => true
  | .systemExit => true
  | .ordinary _ => false

/-- What `execute_nodes` does, as its caller and the adapter observe it:
the condition it re-raises (if any) and how many times it called the
adapter's cancel-connections operation. -/
structure ExecOutcome where
  raised : Option RunExc
  cancelCalls : Nat
deriving DecidableEq

/-- Modelled from the spec: `RunTask.execute_nodes` (dbt/task/run.py,
absent from this source slice).  Per spec section 4.5, on an interrupt
signal or system-exit condition raised from the run loop the scheduler
cancels all open connections exactly once and re-raises the original
condition; an ordinary application-level exception propagates with no
cancellation. -/
def execute_nodes (runQueueResult : Option RunExc) : ExecOutcome :=
  match runQueueResult with
  | none => ⟨none, 0⟩
  | some e => if e.isInterrupt then ⟨some e, 1⟩ else ⟨some e, 0⟩

/-- C2: a keyboard interrupt or system exit raised by the run loop makes
`execute_nodes` call cancel-connections exactly once and re-raise the
same condition; an ordinary exception propagates with zero
cancel-connections calls. -/
theorem execute_nodes_cancel_connections :
    execute_nodes (some .keyboardInterrupt) = ⟨some .keyboardInterrupt, 1⟩ ∧
    execute_nodes (some .systemExit) = ⟨some .systemExit, 1⟩ ∧
    (∀ n : Nat, execute_nodes (some (.ordinary n)) = ⟨some (.ordinary n), 0⟩) :=
  ⟨rfl, rfl, fun _ => rfl⟩

/-- The two task kinds whose graph-queue requests the tests observe. -/
inductive TaskKind where
  | run : TaskKind
  | clone : TaskKind
deriving DecidableEq

/-- What `get_graph_queue` passes to
`node_selector.get_graph_queue(spec, preserve_edges)`: just the
edge-preservation flag, at the granularity the tests assert. -/
structure GraphQueueRequest where
  preserveEdges : Bool
deriving DecidableEq

/-- Modelled from the spec: `RunTask.get_graph_queue` and
`CloneTask.get_graph_queue` (dbt/task/run.py and dbt/task/clone.py,
absent from this source slice).  Per spec section 4.3, the run task
requires edge preservation so that partial runs respect original
ordering through unselected nodes, while the clone task — a destructive
copy where only within-selection order matters — does not. -/
def get_graph_queue : TaskKind → GraphQueueRequest
  | .run => ⟨true⟩
  | .clone => ⟨false⟩

/-- C9: the run task requests its graph queue with edge preservation
enabled; the clone task requests it with edge preservation disabled. -/
theorem get_graph_queue_preserve_edges :
    (get_graph_queue .run).preserveEdges = true ∧
    (get_graph_queue .clone).preserveEdges = false :=
  ⟨rfl, rfl⟩

end DbtCore
